import Mathlib

/-!
# A verification development for the ReScript declaration-level AST differ

This file gives a shallow embedding, in Lean 4, of the core of
`src/rescript_ast_diff/differ.py`: the syntax-tree node model, the UTF-8
decoding used for node text, the canonical structural signature
(`ast_to_tuple`), the declaration extractor (`extract_components`, an
explicit-stack depth-first traversal), the diff engine (`diff_components`),
and the two report entry points (`compare_two_files`,
`process_single_file`).  Theorems about these definitions settle the
specification's claims about the program.

Conventions of the embedding:
* Python byte strings are `List Nat` (one `Nat` per byte); decoded text is
  a Lean `String`.
* Python `dict` is an association list (`Dict`) whose insertion overwrites
  an existing key in place and otherwise appends.
* Python `None` propagation and raised-then-caught exceptions are `Option`;
  an exception that would escape uncaught makes the embedded function
  return `none`.
-/

set_option maxHeartbeats 1000000

namespace RescriptAstDiff

/-- A line/column position, tree-sitter's `Point` (`start_point`/`end_point`). -/
structure Pos where
  row : Nat
  col : Nat
deriving DecidableEq, Repr

/-- A parse-tree node, the read-only interface the differ consumes from
tree-sitter: a type tag, the named/unnamed flag, the raw source bytes of the
node's span, the start and end positions, and the ordered children. -/
inductive Node where
  | mk (ty : String) (isNamed : Bool) (text : List Nat) (startP endP : Pos)
       (children : List Node)

/-- `node.type` in tree-sitter. -/
def Node.ty : Node → String
  | .mk t _ _ _ _ _ => t

/-- `node.is_named` in tree-sitter. -/
def Node.isNamed : Node → Bool
  | .mk _ b _ _ _ _ => b

/-- `node.text` in tree-sitter: the raw bytes of the node's source span. -/
def Node.text : Node → List Nat
  | .mk _ _ tx _ _ _ => tx

/-- `node.start_point`. -/
def Node.startP : Node → Pos
  | .mk _ _ _ sp _ _ => sp

/-- `node.end_point`. -/
def Node.endP : Node → Pos
  | .mk _ _ _ _ ep _ => ep

/-- `node.children`. -/
def Node.children : Node → List Node
  | .mk _ _ _ _ _ cs => cs

mutual

/-- Boolean structural equality of nodes (for the decidable-equality
instance; `Node` is a nested inductive, so the instance is written by
hand). -/
def Node.beq : Node → Node → Bool
  | .mk t1 n1 x1 s1 e1 cs1, .mk t2 n2 x2 s2 e2 cs2 =>
    t1 == t2 && n1 == n2 && x1 == x2 && s1 == s2 && e1 == e2 && Node.beqList cs1 cs2

/-- Boolean structural equality of node lists. -/
def Node.beqList : List Node → List Node → Bool
  | [], [] => true
  | a :: as, b :: bs => Node.beq a b && Node.beqList as bs
  | _, _ => false

end

mutual

theorem node_beq_iff : ∀ (a b : Node), Node.beq a b = true ↔ a = b
  | .mk t1 n1 x1 s1 e1 cs1, .mk t2 n2 x2 s2 e2 cs2 => by
    rw [Node.beq, Node.mk.injEq]
    simp only [Bool.and_eq_true, beq_iff_eq]
    rw [node_beqList_iff cs1 cs2]
    tauto

theorem node_beqList_iff : ∀ (as bs : List Node), Node.beqList as bs = true ↔ as = bs
  | [], [] => by simp [Node.beqList]
  | [], _ :: _ => by simp [Node.beqList]
  | _ :: _, [] => by simp [Node.beqList]
  | a :: as, b :: bs => by
    rw [Node.beqList, List.cons.injEq]
    simp only [Bool.and_eq_true]
    rw [node_beq_iff a b, node_beqList_iff as bs]

end

instance : DecidableEq Node := fun a b =>
  decidable_of_iff (Node.beq a b = true) (node_beq_iff a b)

/-! ## UTF-8 decoding

`differ.py` decodes node text with `bytes.decode(errors="ignore")`
(signatures, captured source text, declaration names) and once with the
strict `bytes.decode()` (the qualification prefix on line 98, inside a
`try`).  Both are modelled here as a byte-at-a-time automaton over byte
lists, decoding per RFC 3629: 1–4 byte sequences, no overlongs, no
surrogates, maximum U+10FFFF.  On an ill-formed subsequence the automaton
signals one error per maximal invalid subpart and resumes at the offending
byte, matching the Python codec's error positions; `errors="ignore"` drops
the errors, strict decoding fails on the first one. -/

/-- Is `b` a UTF-8 continuation byte (`0x80–0xBF`)? -/
def isCont (b : Nat) : Bool := 0x80 ≤ b && b ≤ 0xBF

/-- Decoder state: `none` when a lead byte is expected, `some (need, acc, r)`
when `need` more continuation bytes are expected, `acc` is the scalar value
accumulated so far, and `r` is the valid range of the next byte when it is
constrained by the lead byte (`none` means the plain `0x80–0xBF`). -/
def Utf8State := Option (Nat × Nat × Option (Nat × Nat))

/-- The lead-dependent valid range of the second byte of a 3-byte sequence:
`0xE0` requires `0xA0–0xBF` (no overlongs), `0xED` requires `0x80–0x9F`
(no surrogates). -/
def range3 (b : Nat) : Nat × Nat :=
  if b == 0xE0 then (0xA0, 0xBF) else if b == 0xED then (0x80, 0x9F) else (0x80, 0xBF)

/-- The lead-dependent valid range of the second byte of a 4-byte sequence:
`0xF0` requires `0x90–0xBF` (no overlongs), `0xF4` requires `0x80–0x8F`
(maximum U+10FFFF). -/
def range4 (b : Nat) : Nat × Nat :=
  if b == 0xF0 then (0x90, 0xBF) else if b == 0xF4 then (0x80, 0x8F) else (0x80, 0xBF)

/-- Is byte `b` allowed as the next continuation byte? -/
def contOk (r : Option (Nat × Nat)) (b : Nat) : Bool :=
  match r with
  | some (lo, hi) => lo ≤ b && b ≤ hi
  | none => isCont b

/-- Process one byte in the lead position: the characters emitted, the new
state, and the number of decode errors signalled. -/
def utf8Lead (b : Nat) : List Char × Utf8State × Nat :=
  if b < 0x80 then ([Char.ofNat b], none, 0)
  else if 0xC2 ≤ b && b ≤ 0xDF then ([], some (1, b - 0xC0, none), 0)
  else if 0xE0 ≤ b && b ≤ 0xEF then ([], some (2, b - 0xE0, some (range3 b)), 0)
  else if 0xF0 ≤ b && b ≤ 0xF4 then ([], some (3, b - 0xF0, some (range4 b)), 0)
  else ([], none, 1)

/-- Process one byte in any state.  An ill-formed continuation byte ends the
pending sequence as one error and is reprocessed as a lead byte. -/
def utf8Step (st : Utf8State) (b : Nat) : List Char × Utf8State × Nat :=
  match st with
  | none => utf8Lead b
  | some (need, acc, r) =>
    if contOk r b then
      let acc' := acc * 0x40 + (b - 0x80)
      if need ≤ 1 then ([Char.ofNat acc'], none, 0)
      else ([], some (need - 1, acc', none), 0)
    else
      let (cs, st', e) := utf8Lead b
      (cs, st', e + 1)

/-- Run of `bytes.decode(errors="ignore")`: decode errors are dropped, and a
sequence left incomplete at the end of input is dropped too. -/
def utf8IgnoreRun : Utf8State → List Nat → List Char
  | _, [] => []
  | st, b :: bs =>
    let (cs, st', _) := utf8Step st b
    cs ++ utf8IgnoreRun st' bs

/-- `bytes.decode(errors="ignore")`: total over any byte sequence. -/
def utf8DecodeIgnore (bs : List Nat) : List Char := utf8IgnoreRun none bs

/-- Run of strict `bytes.decode()`: the first decode error (including a
sequence left incomplete at the end of input) raises, modelled as `none`. -/
def utf8StrictRun : Utf8State → List Nat → Option (List Char)
  | st, [] => match st with | none => some [] | some _ => none
  | st, b :: bs =>
    let (cs, st', e) := utf8Step st b
    if e == 0 then (utf8StrictRun st' bs).map (cs ++ ·) else none

/-- Strict `bytes.decode()`: `none` models a raised `UnicodeDecodeError`. -/
def utf8DecodeStrict (bs : List Nat) : Option (List Char) := utf8StrictRun none bs

/-- `text.decode(errors="ignore")` packaged as a `String`. -/
def decode_ignore (bs : List Nat) : String := String.mk (utf8DecodeIgnore bs)

/-- Strict `text.decode()` packaged as an optional `String`. -/
def decode_strict (bs : List Nat) : Option String :=
  (utf8DecodeStrict bs).map String.mk

/-- Modelled from the spec: run of the decoding policy of §4.2/§7, in which
an invalid byte sequence is *replaced* by U+FFFD ("invalid byte sequences
are replaced rather than causing failure"). -/
def utf8ReplaceSpecRun : Utf8State → List Nat → List Char
  | st, [] => match st with | none => [] | some _ => [Char.ofNat 0xFFFD]
  | st, b :: bs =>
    let (cs, st', e) := utf8Step st b
    List.replicate e (Char.ofNat 0xFFFD) ++ cs ++ utf8ReplaceSpecRun st' bs

/-- Modelled from the spec: the spec's lossy-replacement decoding.  This is
NOT what the source does (the source passes `errors="ignore"`); it exists to
compare the spec's words against the source's decoder. -/
def utf8DecodeReplaceSpec (bs : List Nat) : List Char := utf8ReplaceSpecRun none bs

/-! ## The canonical structural signature (`ast_to_tuple`) -/

/-- The recursive `tuple` value built by `ast_to_tuple`: either
`(node.type, decoded text)` for a subtree with no named children, or
`(node.type, tuple of child signatures)` otherwise. -/
inductive Sig where
  | leaf (ty : String) (text : String)
  | node (ty : String) (children : List Sig)

mutual

/-- Boolean structural equality of signatures (Python tuple equality). -/
def Sig.beq : Sig → Sig → Bool
  | .leaf t1 x1, .leaf t2 x2 => t1 == t2 && x1 == x2
  | .node t1 cs1, .node t2 cs2 => t1 == t2 && Sig.beqList cs1 cs2
  | _, _ => false

/-- Boolean structural equality of signature lists. -/
def Sig.beqList : List Sig → List Sig → Bool
  | [], [] => true
  | a :: as, b :: bs => Sig.beq a b && Sig.beqList as bs
  | _, _ => false

end

mutual

theorem sig_beq_iff : ∀ (a b : Sig), Sig.beq a b = true ↔ a = b
  | .leaf t1 x1, .leaf t2 x2 => by simp [Sig.beq]
  | .leaf _ _, .node _ _ => by simp [Sig.beq]
  | .node _ _, .leaf _ _ => by simp [Sig.beq]
  | .node t1 cs1, .node t2 cs2 => by
    rw [Sig.beq, Sig.node.injEq]
    simp only [Bool.and_eq_true, beq_iff_eq]
    rw [sig_beqList_iff cs1 cs2]

theorem sig_beqList_iff : ∀ (as bs : List Sig), Sig.beqList as bs = true ↔ as = bs
  | [], [] => by simp [Sig.beqList]
  | [], _ :: _ => by simp [Sig.beqList]
  | _ :: _, [] => by simp [Sig.beqList]
  | a :: as, b :: bs => by
    rw [Sig.beqList, List.cons.injEq]
    simp only [Bool.and_eq_true]
    rw [sig_beq_iff a b, sig_beqList_iff as bs]

end

instance : DecidableEq Sig := fun a b =>
  decidable_of_iff (Sig.beq a b = true) (sig_beq_iff a b)

mutual

/-- `ast_to_tuple` (differ.py lines 75–83): if the node has no named
children it reduces to `(node.type, text.decode(errors="ignore"))`;
otherwise to `(node.type, tuple(ast_to_tuple(c) for named c))`.
`sigChildren` returns exactly one signature per named child, so its result
is empty iff `named_children` is empty. -/
def ast_to_tuple : Node → Sig
  | .mk ty _ tx _ _ cs =>
    match sigChildren cs with
    | [] => .leaf ty (decode_ignore tx)
    | s :: ss => .node ty (s :: ss)

/-- The signatures of the named nodes of a child list, in order. -/
def sigChildren : List Node → List Sig
  | [] => []
  | c :: cs => (if c.isNamed then [ast_to_tuple c] else []) ++ sigChildren cs

end

/-! ## Declaration-name lookup (`get_decl_name`) -/

/-- `get_decl_name` (differ.py lines 65–73).  `node_type = some nt` models a
truthy `node_type` argument, `none` models Python `None` (the only falsy
value the callers pass).  For each child: when `node_type` is truthy and the
child's type matches, return the text of the first named grandchild whose
type is `name_type` (continuing with later children if there is none); when
`node_type` is falsy, return the text of the first named child whose type is
`name_type`.  Returns `none` (`None`) when nothing matches. -/
def get_decl_name (node : Node) (node_type : Option String) (name_type : String) :
    Option String :=
  node.children.findSome? (fun child =>
    match node_type with
    | some nt =>
      if child.ty == nt then
        (child.children.find? (fun g => g.isNamed && g.ty == name_type)).map
          (fun g => decode_ignore g.text)
      else none
    | none =>
      if child.isNamed && child.ty == name_type then some (decode_ignore child.text)
      else none)

/-! ## Declaration maps

A Python `dict` keyed by declaration name is an association list:
insertion overwrites an existing key in place, otherwise appends.  The
value tuple `(ast_repr, body_text, start_point, end_point)` is `Entry`. -/

/-- The value stored per declaration:
`(ast_repr, body_text, node.start_point, node.end_point)`. -/
structure Entry where
  sig : Sig
  body : String
  startP : Pos
  endP : Pos
deriving DecidableEq

/-- The entry recorded for a classified declaration node (differ.py lines
102–104 and analogues): its signature, its decoded source text, and its
span. -/
def mkEntry (n : Node) : Entry :=
  ⟨ast_to_tuple n, decode_ignore n.text, n.startP, n.endP⟩

/-- A Python `dict` from names to entries, as an association list. -/
abbrev Dict := List (String × Entry)

/-- `d[k] = v` on a Python dict: overwrite in place or append. -/
def dinsert (d : Dict) (k : String) (v : Entry) : Dict :=
  if d.any (fun p => p.1 == k) then d.map (fun p => if p.1 == k then (k, v) else p)
  else d ++ [(k, v)]

/-- `d.keys()`. -/
def dkeys (d : Dict) : List String := d.map Prod.fst

/-- `d.get(k)`: the entry at the first pair whose key is `k`, if present
(keys are unique in every dict the program builds, so "first" is "the"). -/
def dfind? : Dict → String → Option Entry
  | [], _ => none
  | p :: d, k => if p.1 == k then some p.2 else dfind? d k

/-- `d[k]` where the caller has ensured `k ∈ d.keys()` (as `diff_components`
and `process_single_file` do); the default entry is never reached there. -/
def dget (d : Dict) (k : String) : Entry :=
  (dfind? d k).getD ⟨.leaf "" "", "", ⟨0, 0⟩, ⟨0, 0⟩⟩

/-! ## The declaration extractor (`extract_components`)

The Python loop keeps an explicit stack of nodes and reads `node.parent`
and `node.parent.parent`; the embedding keeps those two ancestors in the
stack frame (the root's are `none`). -/

/-- A stack frame: the node, its parent, and its grandparent. -/
abbrev Frame := Node × Option Node × Option Node

/-- Does the traversal treat this node type as a declaration (and stop)? -/
def is_decl (n : Node) : Bool :=
  n.ty == "let_declaration" || n.ty == "type_declaration" || n.ty == "external_declaration"

/-- The name computed for a `let_declaration` (differ.py lines 95–100).
The outer `Option` is the uncaught `AttributeError` from
`node.parent.type` when the node has no parent (only possible for the
root); the inner `Option String` is the Python name value, which may be
`None`.  For a nested declaration the code runs
`name = f"{node.parent.parent.child(0).text.decode()} --> {name}"` inside
`try`/`except: pass`: a missing grandparent, a missing first child, or a
strict-decode failure falls back to the unqualified name, but when the
prefix decodes, the f-string renders a `None` name as the text `"None"`. -/
def let_decl_name (node : Node) (parent grandparent : Option Node) :
    Option (Option String) :=
  let name := get_decl_name node (some "let_binding") "value_identifier"
  match parent with
  | none => none
  | some p =>
    if p.ty != "source_file" then
      some (match grandparent with
        | none => name
        | some gp =>
          match gp.children.head? with
          | none => name
          | some c0 =>
            match decode_strict c0.text with
            | none => name
            | some s => some (s ++ " --> " ++ (match name with
                | some nm => nm
                | none => "None")))
    else some name

/-- Processing of a single popped declaration node (the three `if`/`elif`
branches of differ.py lines 94–118): look up the name, and when it is
truthy (a non-empty string), record the entry in the category's map.
`none` is the uncaught exception of the `let` branch. -/
def process_decl (node : Node) (parent grandparent : Option Node)
    (functions types externals : Dict) : Option (Dict × Dict × Dict) :=
  if node.ty == "let_declaration" then
    match let_decl_name node parent grandparent with
    | none => none
    | some (some s) =>
      if s.isEmpty then some (functions, types, externals)
      else some (dinsert functions s (mkEntry node), types, externals)
    | some none => some (functions, types, externals)
  else if node.ty == "type_declaration" then
    match get_decl_name node (some "type_binding") "type_identifier" with
    | some s =>
      if s.isEmpty then some (functions, types, externals)
      else some (functions, dinsert types s (mkEntry node), externals)
    | none => some (functions, types, externals)
  else if node.ty == "external_declaration" then
    match get_decl_name node none "value_identifier" with
    | some s =>
      if s.isEmpty then some (functions, types, externals)
      else some (functions, types, dinsert externals s (mkEntry node))
    | none => some (functions, types, externals)
  else some (functions, types, externals)

mutual

/-- Size of a node (for the loop's termination measure). -/
def Node.tsize : Node → Nat
  | .mk _ _ _ _ _ cs => 1 + Node.tsizeList cs

/-- Total size of a node list. -/
def Node.tsizeList : List Node → Nat
  | [] => 0
  | c :: cs => Node.tsize c + Node.tsizeList cs

end

/-- Total node size held by a stack. -/
def frameWeight : List Frame → Nat
  | [] => 0
  | fr :: fs => fr.1.tsize + frameWeight fs

theorem tsize_eq (n : Node) : n.tsize = 1 + Node.tsizeList n.children := by
  cases n
  rfl

theorem tsizeList_filter_le (p : Node → Bool) :
    ∀ cs : List Node, Node.tsizeList (cs.filter p) ≤ Node.tsizeList cs := by
  intro cs
  induction cs with
  | nil => simp [Node.tsizeList]
  | cons c cs ih =>
    rw [List.filter_cons]
    cases hp : p c
    · rw [if_neg (by simp [hp])]
      simp only [Node.tsizeList]
      omega
    · rw [if_pos (by simp [hp])]
      simp only [Node.tsizeList]
      omega

theorem frameWeight_map_children (x : Option Node) (y : Option Node) :
    ∀ cs : List Node,
      frameWeight (cs.map (fun c => ((c, x, y) : Frame))) = Node.tsizeList cs := by
  intro cs
  induction cs with
  | nil => rfl
  | cons c cs ih => simp [frameWeight, Node.tsizeList, ih]

theorem frameWeight_append : ∀ a b : List Frame,
    frameWeight (a ++ b) = frameWeight a + frameWeight b := by
  intro a b
  induction a with
  | nil => simp [frameWeight]
  | cons fr fs ih =>
    simp only [List.cons_append, frameWeight, List.append_eq, ih]
    omega

/-- The extraction loop (differ.py lines 91–124): pop a frame; a
declaration node is processed and not descended into; any other node
pushes its named children, in an order that visits them left to right. -/
def extract_loop : List Frame → Dict → Dict → Dict → Option (Dict × Dict × Dict)
  | [], functions, types, externals => some (functions, types, externals)
  | (node, parent, grandparent) :: rest, functions, types, externals =>
    if is_decl node then
      match process_decl node parent grandparent functions types externals with
      | none => none
      | some (f, t, e) => extract_loop rest f t e
    else
      extract_loop
        ((node.children.filter (fun c => c.isNamed)).map (fun c => (c, some node, parent))
          ++ rest)
        functions types externals
termination_by fs _ _ _ => frameWeight fs
decreasing_by
  · have h1 : 1 ≤ node.tsize := by rw [tsize_eq]; omega
    simp only [frameWeight]
    omega
  · rw [frameWeight_append, frameWeight_map_children]
    have h3 := tsizeList_filter_le (fun c => c.isNamed) node.children
    have h4 := tsize_eq node
    simp only [frameWeight]
    omega

/-- `extract_components` (differ.py lines 85–125): run the loop from the
root (whose parent and grandparent are `None`). -/
def extract_components (root : Node) : Option (Dict × Dict × Dict) :=
  extract_loop [(root, none, none)] [] [] []

/-! ## The document-order view of extraction

`decl_frames` lists the declaration nodes the traversal processes, in
document order, together with their parent and grandparent; it does not
descend into a declaration.  `process_frames` folds `process_decl` over
such a list.  `extract_loop_eq_process` proves the stack loop equal to
this view. -/

mutual

/-- The declaration frames of a subtree in document order; a recognized
declaration is a stopping point (its own subtree is not searched). -/
def decl_frames : Node → Option Node → Option Node → List Frame
  | n@(.mk _ _ _ _ _ cs), parent, grandparent =>
    if is_decl n then [(n, parent, grandparent)]
    else decl_frames_list cs n parent

/-- The declaration frames contributed by the named nodes of a child
list, in order; `par` is the children's parent, `gp` its parent. -/
def decl_frames_list : List Node → Node → Option Node → List Frame
  | [], _, _ => []
  | c :: cs, par, gp =>
    (if c.isNamed then decl_frames c (some par) gp else []) ++ decl_frames_list cs par gp

end

/-- Fold `process_decl` over a list of declaration frames. -/
def process_frames : List Frame → Dict → Dict → Dict → Option (Dict × Dict × Dict)
  | [], f, t, e => some (f, t, e)
  | (node, parent, grandparent) :: rest, f, t, e =>
    match process_decl node parent grandparent f t e with
    | none => none
    | some (f', t', e') => process_frames rest f' t' e'

/-- Flatten each stack frame to its declaration frames, in order. -/
def flattenFrames : List Frame → List Frame
  | [] => []
  | (n, p, g) :: rest => decl_frames n p g ++ flattenFrames rest

theorem decl_frames_eq (n : Node) (p g : Option Node) :
    decl_frames n p g =
      if is_decl n then [(n, p, g)] else decl_frames_list n.children n p := by
  cases n
  rw [decl_frames]
  rfl

theorem flattenFrames_append : ∀ a b : List Frame,
    flattenFrames (a ++ b) = flattenFrames a ++ flattenFrames b := by
  intro a b
  induction a with
  | nil => rfl
  | cons fr rest ih =>
    obtain ⟨n, p, g⟩ := fr
    simp [flattenFrames, ih]

theorem flattenFrames_pushed (par : Node) (gp : Option Node) :
    ∀ cs : List Node,
      flattenFrames ((cs.filter (fun c => c.isNamed)).map (fun c => (c, some par, gp)))
        = decl_frames_list cs par gp := by
  intro cs
  induction cs with
  | nil => rfl
  | cons c cs ih =>
    rw [List.filter_cons]
    cases hn : c.isNamed with
    | false => simp [decl_frames_list, hn, ih]
    | true => simp [decl_frames_list, hn, flattenFrames, ih]

/-- The explicit-stack loop visits, and processes, exactly the declaration
frames of the tree in document order: pushing named children in reverse
(so that they are popped left to right) makes the stack traversal agree
with the structural left-to-right walk `decl_frames`. -/
theorem extract_loop_eq_process : ∀ (fs : List Frame) (f t e : Dict),
    extract_loop fs f t e = process_frames (flattenFrames fs) f t e
  | [], f, t, e => by rw [extract_loop]; rfl
  | (node, parent, grandparent) :: rest, f, t, e => by
    rw [extract_loop]
    by_cases hd : is_decl node = true
    · rw [if_pos hd]
      have hflat : flattenFrames ((node, parent, grandparent) :: rest)
          = (node, parent, grandparent) :: flattenFrames rest := by
        rw [flattenFrames, decl_frames_eq, if_pos hd, List.singleton_append]
      rw [hflat, process_frames]
      cases hp : process_decl node parent grandparent f t e with
      | none => rfl
      | some m =>
        obtain ⟨f', t', e'⟩ := m
        exact extract_loop_eq_process rest f' t' e'
    · rw [if_neg hd]
      rw [extract_loop_eq_process
        ((node.children.filter (fun c => c.isNamed)).map (fun c => (c, some node, parent))
          ++ rest) f t e]
      congr 1
      rw [flattenFrames_append, flattenFrames_pushed, flattenFrames, decl_frames_eq,
        if_neg hd]
termination_by fs _ _ _ => frameWeight fs
decreasing_by
  · have h1 : 1 ≤ node.tsize := by rw [tsize_eq]; omega
    simp only [frameWeight]
    omega
  · rw [frameWeight_append, frameWeight_map_children]
    have h3 := tsizeList_filter_le (fun c => c.isNamed) node.children
    have h4 := tsize_eq node
    simp only [frameWeight]
    omega

/-- `extract_components` equals the document-order pipeline: fold
`process_decl` over the declarations of the tree in document order. -/
theorem extract_components_eq (root : Node) :
    extract_components root = process_frames (decl_frames root none none) [] [] [] := by
  rw [extract_components, extract_loop_eq_process, flattenFrames, flattenFrames,
    List.append_nil]

/-! ## The diff engine (`diff_components`) -/

/-- Code-point lexicographic `≤` on character lists: the order Python uses
to compare strings. -/
def charListLe : List Char → List Char → Bool
  | [], _ => true
  | _ :: _, [] => false
  | c :: cs, d :: ds =>
    if c.toNat < d.toNat then true
    else if d.toNat < c.toNat then false
    else charListLe cs ds

/-- Python's `s1 <= s2` on strings. -/
def strLe (a b : String) : Bool := charListLe a.data b.data

/-- Insert into a sorted list of strings, keeping it sorted. -/
def insertSorted (x : String) : List String → List String
  | [] => [x]
  | y :: ys => if strLe x y then x :: y :: ys else y :: insertSorted x ys

/-- Python's `sorted` on a collection of strings: ascending code-point
lexicographic order (insertion sort). -/
def sortStrings : List String → List String
  | [] => []
  | x :: xs => insertSorted x (sortStrings xs)

/-- The four positions carried by a modified entry
(`{"old_start": …, "old_end": …, "new_start": …, "new_end": …}`). -/
structure SpanQuad where
  old_start : Pos
  old_end : Pos
  new_start : Pos
  new_end : Pos
deriving DecidableEq

/-- The record returned by `diff_components`:
`{"added": …, "deleted": …, "modified": …}`. -/
structure ChangeRec where
  added : List (String × String)
  deleted : List (String × String)
  modified : List (String × String × String × SpanQuad)
deriving DecidableEq

/-- `diff_components` (differ.py lines 127–145).  `added` is the sorted
`after − before` names with new texts; `deleted` the sorted
`before − after` names with old texts; `modified` the sorted common names
whose signatures differ, with both texts and both spans.  Key sets are
modelled by the key lists of the maps (whose keys are distinct for every
dict the program builds). -/
def diff_components (before_map after_map : Dict) : ChangeRec :=
  let before_names := dkeys before_map
  let after_names := dkeys after_map
  let added_names := after_names.filter (fun n => !before_names.contains n)
  let deleted_names := before_names.filter (fun n => !after_names.contains n)
  let common := before_names.filter (fun n => after_names.contains n)
  let added := (sortStrings added_names).map (fun n => (n, (dget after_map n).body))
  let deleted := (sortStrings deleted_names).map (fun n => (n, (dget before_map n).body))
  let modified := (sortStrings common).filterMap (fun n =>
    let o := dget before_map n
    let a := dget after_map n
    if o.sig ≠ a.sig then some (n, o.body, a.body, ⟨o.startP, o.endP, a.startP, a.endP⟩)
    else none)
  ⟨added, deleted, modified⟩

/-! ## The change report (`DetailedChanges`) and the two entry points -/

/-- The `DetailedChanges` record (differ.py lines 11–36): the module name
and the nine lists. -/
structure DetailedChanges where
  moduleName : String
  addedFunctions : List (String × String)
  modifiedFunctions : List (String × String × String × SpanQuad)
  deletedFunctions : List (String × String)
  addedTypes : List (String × String)
  modifiedTypes : List (String × String × String × SpanQuad)
  deletedTypes : List (String × String)
  addedExternals : List (String × String)
  modifiedExternals : List (String × String × String × SpanQuad)
  deletedExternals : List (String × String)
deriving DecidableEq

/-- `compare_two_files` (differ.py lines 147–166): extract both trees,
diff per category, assemble the report.  `none` models the uncaught
exception that `extract_components` can raise. -/
def compare_two_files (module_name : String) (old_file_ast new_file_ast : Node) :
    Option DetailedChanges :=
  match extract_components old_file_ast, extract_components new_file_ast with
  | some (old_funcs, old_types, old_ext), some (new_funcs, new_types, new_ext) =>
    let funcs_diff := diff_components old_funcs new_funcs
    let types_diff := diff_components old_types new_types
    let ext_diff := diff_components old_ext new_ext
    some ⟨module_name,
      funcs_diff.added, funcs_diff.modified, funcs_diff.deleted,
      types_diff.added, types_diff.modified, types_diff.deleted,
      ext_diff.added, ext_diff.modified, ext_diff.deleted⟩
  | _, _ => none

/-- `process_single_file` (differ.py lines 168–183): extract one tree; with
`mode == "deleted"` every declaration goes to the deleted lists, with any
other mode string to the added lists; all other lists stay empty. -/
def process_single_file (module_name : String) (file_ast : Node) (mode : String) :
    Option DetailedChanges :=
  match extract_components file_ast with
  | none => none
  | some (funcs, types, exts) =>
    if mode == "deleted" then
      some ⟨module_name,
        [], [], (sortStrings (dkeys funcs)).map (fun n => (n, (dget funcs n).body)),
        [], [], (sortStrings (dkeys types)).map (fun n => (n, (dget types n).body)),
        [], [], (sortStrings (dkeys exts)).map (fun n => (n, (dget exts n).body))⟩
    else
      some ⟨module_name,
        (sortStrings (dkeys funcs)).map (fun n => (n, (dget funcs n).body)), [], [],
        (sortStrings (dkeys types)).map (fun n => (n, (dget types n).body)), [], [],
        (sortStrings (dkeys exts)).map (fun n => (n, (dget exts n).body)), [], []⟩

/-! ## Lemmas about sorting -/

theorem perm_insertSorted (x : String) : ∀ l : List String,
    List.Perm (insertSorted x l) (x :: l)
  | [] => List.Perm.refl _
  | y :: ys => by
    rw [insertSorted]
    by_cases h : strLe x y = true
    · rw [if_pos h]
    · rw [if_neg h]
      exact ((perm_insertSorted x ys).cons y).trans (List.Perm.swap x y ys)

theorem perm_sortStrings : ∀ l : List String, List.Perm (sortStrings l) l
  | [] => List.Perm.refl _
  | x :: xs => by
    rw [sortStrings]
    exact (perm_insertSorted x (sortStrings xs)).trans ((perm_sortStrings xs).cons x)

theorem mem_sortStrings {a : String} {l : List String} : a ∈ sortStrings l ↔ a ∈ l :=
  (perm_sortStrings l).mem_iff

theorem nodup_sortStrings {l : List String} (h : l.Nodup) : (sortStrings l).Nodup :=
  (perm_sortStrings l).nodup_iff.mpr h

theorem charListLe_total : ∀ a b : List Char,
    charListLe a b = true ∨ charListLe b a = true
  | [], _ => Or.inl rfl
  | _ :: _, [] => Or.inr rfl
  | c :: cs, d :: ds => by
    rw [charListLe, charListLe]
    rcases Nat.lt_trichotomy c.toNat d.toNat with h | h | h
    · left
      rw [if_pos h]
    · rw [if_neg (by omega), if_neg (by omega), if_neg (by omega), if_neg (by omega)]
      exact charListLe_total cs ds
    · right
      rw [if_pos h]

theorem charListLe_trans : ∀ a b c : List Char,
    charListLe a b = true → charListLe b c = true → charListLe a c = true
  | [], _, _, _, _ => rfl
  | _ :: _, [], _, hab, _ => by rw [charListLe] at hab; exact absurd hab (by simp)
  | _ :: _, _ :: _, [], _, hbc => by rw [charListLe] at hbc; exact absurd hbc (by simp)
  | x :: xs, y :: ys, z :: zs, hab, hbc => by
    rw [charListLe] at hab hbc ⊢
    rcases Nat.lt_trichotomy x.toNat y.toNat with h1 | h1 | h1 <;>
      rcases Nat.lt_trichotomy y.toNat z.toNat with h2 | h2 | h2
    all_goals first
      | (rw [if_pos (show x.toNat < z.toNat by omega)])
      | (rw [if_neg (by omega), if_neg (by omega)]
         rw [if_neg (by omega), if_neg (by omega)] at hab
         rw [if_neg (by omega), if_neg (by omega)] at hbc
         exact charListLe_trans xs ys zs hab hbc)
      | (rw [if_neg (by omega), if_pos (by omega)] at hab
         exact absurd hab (by simp))
      | (rw [if_neg (by omega), if_pos (by omega)] at hbc
         exact absurd hbc (by simp))

theorem strLe_trans {a b c : String} (hab : strLe a b = true) (hbc : strLe b c = true) :
    strLe a c = true :=
  charListLe_trans a.data b.data c.data hab hbc

theorem strLe_total (a b : String) : strLe a b = true ∨ strLe b a = true :=
  charListLe_total a.data b.data

theorem mem_insertSorted {a x : String} {l : List String} :
    a ∈ insertSorted x l ↔ a = x ∨ a ∈ l := by
  rw [(perm_insertSorted x l).mem_iff, List.mem_cons]

theorem sorted_insertSorted (x : String) : ∀ l : List String,
    l.Pairwise (fun a b => strLe a b = true) →
    (insertSorted x l).Pairwise (fun a b => strLe a b = true)
  | [], _ => by simp [insertSorted]
  | y :: ys, h => by
    rw [insertSorted]
    by_cases hxy : strLe x y = true
    · rw [if_pos hxy]
      refine List.Pairwise.cons ?_ h
      intro b hb
      rcases List.mem_cons.mp hb with rfl | hb
      · exact hxy
      · exact strLe_trans hxy (List.rel_of_pairwise_cons h hb)
    · rw [if_neg hxy]
      have hyx : strLe y x = true := (strLe_total x y).resolve_left hxy
      refine List.Pairwise.cons ?_ (sorted_insertSorted x ys (List.Pairwise.of_cons h))
      intro b hb
      rcases mem_insertSorted.mp hb with rfl | hb
      · exact hyx
      · exact List.rel_of_pairwise_cons h hb

theorem sorted_sortStrings : ∀ l : List String,
    (sortStrings l).Pairwise (fun a b => strLe a b = true)
  | [] => List.Pairwise.nil
  | x :: xs => sorted_insertSorted x (sortStrings xs) (sorted_sortStrings xs)

/-! ## Lemmas about the dict model -/

theorem any_key_iff (d : Dict) (k : String) :
    d.any (fun p => p.1 == k) = true ↔ k ∈ dkeys d := by
  rw [List.any_eq_true]
  constructor
  · rintro ⟨p, hp, hpk⟩
    rw [beq_iff_eq] at hpk
    exact hpk ▸ List.mem_map_of_mem Prod.fst hp
  · intro hk
    obtain ⟨p, hp, rfl⟩ := List.mem_map.mp hk
    exact ⟨p, hp, beq_self_eq_true _⟩

theorem dkeys_dinsert (d : Dict) (k : String) (v : Entry) :
    dkeys (dinsert d k v) = if k ∈ dkeys d then dkeys d else dkeys d ++ [k] := by
  rw [dinsert]
  by_cases hk : k ∈ dkeys d
  · rw [if_pos ((any_key_iff d k).mpr hk), if_pos hk]
    have hfst : ∀ p : String × Entry, (if p.1 == k then (k, v) else p).1 = p.1 := by
      intro p
      by_cases h : p.1 == k
      · rw [if_pos h]
        exact (eq_of_beq h).symm
      · rw [if_neg h]
    rw [dkeys, dkeys, List.map_map]
    exact List.map_congr_left (fun p _ => hfst p)
  · rw [if_neg (by simpa using (any_key_iff d k).not.mpr hk), if_neg hk]
    simp [dkeys]

theorem dkeys_cons (p : String × Entry) (d : Dict) : dkeys (p :: d) = p.1 :: dkeys d := rfl

theorem dfind?_map_replace_ne (k : String) (v : Entry) (k' : String) (h : k' ≠ k) :
    ∀ d : Dict, dfind? (d.map (fun p => if p.1 == k then (k, v) else p)) k' = dfind? d k'
  | [] => rfl
  | p :: d => by
    have ih := dfind?_map_replace_ne k v k' h d
    rw [List.map_cons, dfind?, dfind?]
    cases hbeq : (p.1 == k) with
    | true =>
      rw [if_pos (Eq.refl true)]
      have h2 : (((k, v) : String × Entry).1 == k') = false :=
        beq_eq_false_iff_ne.mpr (Ne.symm h)
      have h3 : (p.1 == k') = false := by
        have : p.1 = k := eq_of_beq hbeq
        rw [this]
        exact beq_eq_false_iff_ne.mpr (Ne.symm h)
      rw [h2, h3]
      simp only [Bool.false_eq_true, if_false]
      exact ih
    | false =>
      simp only [hbeq, Bool.false_eq_true, if_false]
      rw [ih]

theorem dfind?_map_replace_mem (k : String) (v : Entry) :
    ∀ d : Dict, k ∈ dkeys d →
      dfind? (d.map (fun p => if p.1 == k then (k, v) else p)) k = some v
  | [], hk => absurd hk (by simp [dkeys])
  | p :: d, hk => by
    rw [List.map_cons, dfind?]
    cases hbeq : (p.1 == k) with
    | true => simp [hbeq]
    | false =>
      have hk' : k ∈ dkeys d := by
        rw [dkeys_cons, List.mem_cons] at hk
        rcases hk with h | h
        · exact absurd (beq_iff_eq.mpr h.symm) (by simp [hbeq])
        · exact h
      simp only [hbeq, Bool.false_eq_true, if_false]
      exact dfind?_map_replace_mem k v d hk'

theorem dfind?_append_single (k : String) (v : Entry) (k' : String) :
    ∀ d : Dict, k ∉ dkeys d →
      dfind? (d ++ [(k, v)]) k' = if k' = k then some v else dfind? d k'
  | [], _ => by
    rw [List.nil_append, dfind?, dfind?]
    by_cases hk' : k' = k
    · rw [if_pos (beq_iff_eq.mpr hk'.symm), if_pos hk']
    · rw [if_neg (by simpa using fun h => hk' h.symm), if_neg hk']
      rfl
  | p :: d, hk => by
    have hkd : k ∉ dkeys d := fun h => hk (by rw [dkeys_cons]; exact List.mem_cons.mpr (Or.inr h))
    have hkp : p.1 ≠ k := fun h => hk (by rw [dkeys_cons]; exact List.mem_cons.mpr (Or.inl h.symm))
    rw [List.cons_append, dfind?, dfind?]
    cases hbeq : (p.1 == k') with
    | true =>
      have hne : ¬ k' = k := fun h => hkp (h ▸ eq_of_beq hbeq)
      simp [hne, hbeq]
    | false =>
      simp only [Bool.false_eq_true, if_false, dfind?_append_single k v k' d hkd]

theorem dfind?_dinsert (d : Dict) (k : String) (v : Entry) (k' : String) :
    dfind? (dinsert d k v) k' = if k' = k then some v else dfind? d k' := by
  rw [dinsert]
  by_cases hk : k ∈ dkeys d
  · rw [if_pos ((any_key_iff d k).mpr hk)]
    by_cases hk' : k' = k
    · subst hk'
      rw [if_pos rfl]
      exact dfind?_map_replace_mem k' v d hk
    · rw [if_neg hk']
      exact dfind?_map_replace_ne k v k' hk' d
  · rw [if_neg (by simpa using (any_key_iff d k).not.mpr hk)]
    exact dfind?_append_single k v k' d hk

/-- Build a dict by inserting a list of `(name, entry)` pairs left to right
(the order the traversal records them). -/
def dict_of (l : List (String × Entry)) : Dict :=
  l.foldl (fun d p => dinsert d p.1 p.2) []

/-- The value of the *last* pair of `l` carrying key `k`, if any: the
last-write-wins view of a key-overwriting dict. -/
def lastVal (l : List (String × Entry)) (k : String) : Option Entry :=
  (l.reverse.find? (fun p => p.1 == k)).map Prod.snd

theorem dfind?_dict_of (l : List (String × Entry)) (k : String) :
    dfind? (dict_of l) k = lastVal l k := by
  induction l using List.reverseRecOn with
  | nil => rfl
  | append_singleton l p ih =>
    rw [dict_of, List.foldl_append]
    rw [show (List.foldl (fun d p => dinsert d p.1 p.2) [] l) = dict_of l from rfl]
    rw [List.foldl_cons, List.foldl_nil, dfind?_dinsert, lastVal, List.reverse_append]
    simp only [List.reverse_singleton, List.singleton_append, List.find?_cons]
    by_cases hk : k = p.1
    · rw [if_pos hk]
      have : (p.1 == k) = true := by rw [hk]; exact beq_self_eq_true _
      rw [this]
      rfl
    · rw [if_neg hk]
      have : (p.1 == k) = false := by
        simpa using fun h => hk h.symm
      rw [this]
      exact ih

theorem nodup_dkeys_dinsert (d : Dict) (k : String) (v : Entry)
    (h : (dkeys d).Nodup) : (dkeys (dinsert d k v)).Nodup := by
  rw [dkeys_dinsert]
  by_cases hk : k ∈ dkeys d
  · rw [if_pos hk]
    exact h
  · rw [if_neg hk]
    simp [List.nodup_append, h, hk]

theorem nodup_dkeys_foldl : ∀ (l : List (String × Entry)) (d : Dict),
    (dkeys d).Nodup → (dkeys (l.foldl (fun d p => dinsert d p.1 p.2) d)).Nodup
  | [], d, h => h
  | p :: l, d, h =>
    nodup_dkeys_foldl l (dinsert d p.1 p.2) (nodup_dkeys_dinsert d p.1 p.2 h)

theorem nodup_dkeys_dict_of (l : List (String × Entry)) : (dkeys (dict_of l)).Nodup :=
  nodup_dkeys_foldl l [] List.Pairwise.nil

theorem dkeys_foldl_subset : ∀ (l : List (String × Entry)) (d : Dict) (k : String),
    k ∈ dkeys (l.foldl (fun d p => dinsert d p.1 p.2) d) →
    k ∈ dkeys d ∨ k ∈ l.map Prod.fst
  | [], _, _, h => Or.inl h
  | p :: l, d, k, h => by
    rcases dkeys_foldl_subset l (dinsert d p.1 p.2) k h with h' | h'
    · rw [dkeys_dinsert] at h'
      by_cases hp : p.1 ∈ dkeys d
      · rw [if_pos hp] at h'
        exact Or.inl h'
      · rw [if_neg hp] at h'
        rcases List.mem_append.mp h' with h'' | h''
        · exact Or.inl h''
        · right
          rw [List.map_cons, List.mem_cons]
          exact Or.inl (List.mem_singleton.mp h'')
    · right
      rw [List.map_cons, List.mem_cons]
      exact Or.inr h'

theorem dkeys_dict_of_subset (l : List (String × Entry)) (k : String)
    (h : k ∈ dkeys (dict_of l)) : k ∈ l.map Prod.fst := by
  rcases dkeys_foldl_subset l [] k h with h' | h'
  · cases h'
  · exact h'

/-! ## The `(name, entry)` pair contributed by one declaration frame -/

/-- The functions-map pair recorded for a popped `let_declaration` (if its
computed name is truthy); `none` when nothing is recorded. -/
def let_entry (node : Node) (parent grandparent : Option Node) : Option (String × Entry) :=
  if node.ty == "let_declaration" then
    match let_decl_name node parent grandparent with
    | some (some s) => if s.isEmpty then none else some (s, mkEntry node)
    | _ => none
  else none

/-- The types-map pair recorded for a popped `type_declaration`. -/
def type_entry (node : Node) (parent grandparent : Option Node) : Option (String × Entry) :=
  if node.ty == "type_declaration" then
    match get_decl_name node (some "type_binding") "type_identifier" with
    | some s => if s.isEmpty then none else some (s, mkEntry node)
    | none => none
  else none

/-- The externals-map pair recorded for a popped `external_declaration`. -/
def ext_entry (node : Node) (parent grandparent : Option Node) : Option (String × Entry) :=
  if node.ty == "external_declaration" then
    match get_decl_name node none "value_identifier" with
    | some s => if s.isEmpty then none else some (s, mkEntry node)
    | none => none
  else none

/-- Insert an optional pair into a dict. -/
def optIns (d : Dict) : Option (String × Entry) → Dict
  | none => d
  | some p => dinsert d p.1 p.2

theorem process_decl_some {node : Node} {parent grandparent : Option Node}
    {f t e f' t' e' : Dict}
    (h : process_decl node parent grandparent f t e = some (f', t', e')) :
    f' = optIns f (let_entry node parent grandparent) ∧
    t' = optIns t (type_entry node parent grandparent) ∧
    e' = optIns e (ext_entry node parent grandparent) := by
  rw [process_decl] at h
  rw [let_entry, type_entry, ext_entry]
  by_cases h1 : (node.ty == "let_declaration") = true
  · have hty : node.ty = "let_declaration" := eq_of_beq h1
    have h2 : (node.ty == "type_declaration") = false := by rw [hty]; decide
    have h3 : (node.ty == "external_declaration") = false := by rw [hty]; decide
    rw [if_pos h1] at h
    rw [if_pos h1, h2, h3]
    simp only [Bool.false_eq_true, if_false]
    cases hn : let_decl_name node parent grandparent with
    | none => rw [hn] at h; cases h
    | some o =>
      rw [hn] at h
      cases o with
      | none =>
        simp only [Option.some.injEq, Prod.mk.injEq] at h
        obtain ⟨rfl, rfl, rfl⟩ := h
        simp [optIns]
      | some s =>
        by_cases hs : s.isEmpty = true
        · simp only [if_pos hs, Option.some.injEq, Prod.mk.injEq] at h
          obtain ⟨rfl, rfl, rfl⟩ := h
          simp [optIns, hs]
        · simp only [if_neg hs, Option.some.injEq, Prod.mk.injEq] at h
          obtain ⟨rfl, rfl, rfl⟩ := h
          simp [optIns, hs]
  · rw [if_neg h1] at h
    rw [if_neg h1]
    by_cases h2 : (node.ty == "type_declaration") = true
    · have hty : node.ty = "type_declaration" := eq_of_beq h2
      have h3 : (node.ty == "external_declaration") = false := by rw [hty]; decide
      rw [if_pos h2] at h
      rw [if_pos h2, h3]
      simp only [Bool.false_eq_true, if_false]
      cases hn : get_decl_name node (some "type_binding") "type_identifier" with
      | none =>
        rw [hn] at h
        simp only [Option.some.injEq, Prod.mk.injEq] at h
        obtain ⟨rfl, rfl, rfl⟩ := h
        simp [optIns]
      | some s =>
        rw [hn] at h
        by_cases hs : s.isEmpty = true
        · simp only [if_pos hs, Option.some.injEq, Prod.mk.injEq] at h
          obtain ⟨rfl, rfl, rfl⟩ := h
          simp [optIns, hs]
        · simp only [if_neg hs, Option.some.injEq, Prod.mk.injEq] at h
          obtain ⟨rfl, rfl, rfl⟩ := h
          simp [optIns, hs]
    · rw [if_neg h2] at h
      rw [if_neg h2]
      by_cases h3 : (node.ty == "external_declaration") = true
      · rw [if_pos h3] at h
        rw [if_pos h3]
        cases hn : get_decl_name node none "value_identifier" with
        | none =>
          rw [hn] at h
          simp only [Option.some.injEq, Prod.mk.injEq] at h
          obtain ⟨rfl, rfl, rfl⟩ := h
          simp [optIns]
        | some s =>
          rw [hn] at h
          by_cases hs : s.isEmpty = true
          · simp only [if_pos hs, Option.some.injEq, Prod.mk.injEq] at h
            obtain ⟨rfl, rfl, rfl⟩ := h
            simp [optIns, hs]
          · simp only [if_neg hs, Option.some.injEq, Prod.mk.injEq] at h
            obtain ⟨rfl, rfl, rfl⟩ := h
            simp [optIns, hs]
      · rw [if_neg h3] at h
        rw [if_neg h3]
        simp only [Option.some.injEq, Prod.mk.injEq] at h
        obtain ⟨rfl, rfl, rfl⟩ := h
        simp [optIns]

/-- Folding `process_decl` over a frame list builds, in each category, the
dict obtained by inserting that category's `(name, entry)` pairs in list
order. -/
theorem process_frames_some : ∀ (frs : List Frame) (f t e f' t' e' : Dict),
    process_frames frs f t e = some (f', t', e') →
    f' = (frs.filterMap (fun fr => let_entry fr.1 fr.2.1 fr.2.2)).foldl
        (fun d p => dinsert d p.1 p.2) f ∧
    t' = (frs.filterMap (fun fr => type_entry fr.1 fr.2.1 fr.2.2)).foldl
        (fun d p => dinsert d p.1 p.2) t ∧
    e' = (frs.filterMap (fun fr => ext_entry fr.1 fr.2.1 fr.2.2)).foldl
        (fun d p => dinsert d p.1 p.2) e
  | [], f, t, e, f', t', e', h => by
    simp only [process_frames, Option.some.injEq, Prod.mk.injEq] at h
    obtain ⟨rfl, rfl, rfl⟩ := h
    simp
  | (node, parent, grandparent) :: rest, f, t, e, f', t', e', h => by
    rw [process_frames] at h
    cases hp : process_decl node parent grandparent f t e with
    | none => rw [hp] at h; cases h
    | some m =>
      obtain ⟨f1, t1, e1⟩ := m
      rw [hp] at h
      obtain ⟨hf1, ht1, he1⟩ := process_decl_some hp
      obtain ⟨hf, ht, he⟩ := process_frames_some rest f1 t1 e1 f' t' e' h
      refine ⟨?_, ?_, ?_⟩
      · rw [hf, hf1, List.filterMap_cons]
        cases let_entry node parent grandparent with
        | none => rfl
        | some q => rw [List.foldl_cons]; rfl
      · rw [ht, ht1, List.filterMap_cons]
        cases type_entry node parent grandparent with
        | none => rfl
        | some q => rw [List.foldl_cons]; rfl
      · rw [he, he1, List.filterMap_cons]
        cases ext_entry node parent grandparent with
        | none => rfl
        | some q => rw [List.foldl_cons]; rfl

/-- The functions-map pairs of a whole tree, in document order. -/
def function_entries (root : Node) : List (String × Entry) :=
  (decl_frames root none none).filterMap (fun fr => let_entry fr.1 fr.2.1 fr.2.2)

/-- The types-map pairs of a whole tree, in document order. -/
def type_entries (root : Node) : List (String × Entry) :=
  (decl_frames root none none).filterMap (fun fr => type_entry fr.1 fr.2.1 fr.2.2)

/-- The externals-map pairs of a whole tree, in document order. -/
def external_entries (root : Node) : List (String × Entry) :=
  (decl_frames root none none).filterMap (fun fr => ext_entry fr.1 fr.2.1 fr.2.2)

/-- A successful extraction builds each category map by inserting that
category's `(name, entry)` pairs in document order, starting from empty. -/
theorem extract_components_some {root : Node} {f t e : Dict}
    (h : extract_components root = some (f, t, e)) :
    f = dict_of (function_entries root) ∧ t = dict_of (type_entries root) ∧
      e = dict_of (external_entries root) := by
  rw [extract_components_eq] at h
  exact process_frames_some (decl_frames root none none) [] [] [] f t e h

/-! ## What the canonical signature reads: the scrub of a tree

`scrub` erases exactly the data `ast_to_tuple` never reads: positions
always; unnamed children always; and the raw text whenever a named child
exists.  Two nodes with equal scrubs differ only in unnamed child nodes,
positions, and the (unread) text of nodes that have named children —
i.e. only in formatting noise. -/

mutual

/-- Erase the parts of a subtree that the canonicalizer ignores. -/
def scrub : Node → Node
  | .mk ty nm tx _ _ cs =>
    match scrubList cs with
    | [] => .mk ty nm tx ⟨0, 0⟩ ⟨0, 0⟩ []
    | c :: cs' => .mk ty nm [] ⟨0, 0⟩ ⟨0, 0⟩ (c :: cs')

/-- Scrub of a child list: the scrubs of the named children only. -/
def scrubList : List Node → List Node
  | [] => []
  | c :: cs => (if c.isNamed then [scrub c] else []) ++ scrubList cs

end

theorem scrub_isNamed (n : Node) : (scrub n).isNamed = n.isNamed := by
  cases n with
  | mk ty nm tx sp ep cs =>
    rw [scrub]
    cases hs : scrubList cs <;> rfl

theorem scrubList_isNamed : ∀ (cs : List Node) (c : Node),
    c ∈ scrubList cs → c.isNamed = true
  | [], _, hc => absurd hc (by rw [scrubList]; simp)
  | c0 :: cs, c, hc => by
    rw [scrubList] at hc
    rcases List.mem_append.mp hc with h | h
    · by_cases hn : c0.isNamed = true
      · rw [if_pos hn] at h
        rcases List.mem_singleton.mp h with rfl
        rw [scrub_isNamed]
        exact hn
      · rw [if_neg hn] at h
        cases h
    · exact scrubList_isNamed cs c h

mutual

theorem ast_to_tuple_scrub : ∀ n : Node, ast_to_tuple (scrub n) = ast_to_tuple n
  | .mk ty nm tx sp ep cs => by
    have hsc := sigChildren_scrubList cs
    rw [scrub]
    cases hs : scrubList cs with
    | nil =>
      rw [hs] at hsc
      rw [ast_to_tuple, ast_to_tuple, ← hsc]
    | cons c cs' =>
      rw [hs] at hsc
      have hcnm : c.isNamed = true :=
        scrubList_isNamed cs c (by rw [hs]; exact List.mem_cons_self c cs')
      rw [ast_to_tuple, ast_to_tuple, ← hsc, sigChildren, if_pos hcnm,
        List.singleton_append]

theorem sigChildren_scrubList : ∀ cs : List Node, sigChildren (scrubList cs) = sigChildren cs
  | [] => rfl
  | c :: cs => by
    rw [scrubList, sigChildren]
    by_cases hn : c.isNamed = true
    · rw [if_pos hn, List.singleton_append, sigChildren, scrub_isNamed,
        if_pos hn, ast_to_tuple_scrub c, sigChildren_scrubList cs, List.singleton_append,
        if_pos hn, List.singleton_append]
    · rw [if_neg hn, if_neg hn, List.nil_append, List.nil_append]
      exact sigChildren_scrubList cs

end

/-- Equal scrubs give equal signatures: the canonicalizer reads nothing
scrub erases. -/
theorem ast_to_tuple_eq_of_scrub_eq {a b : Node} (h : scrub a = scrub b) :
    ast_to_tuple a = ast_to_tuple b := by
  rw [← ast_to_tuple_scrub a, h, ast_to_tuple_scrub b]

/-! ## Paths: where in the tree a declaration frame lives -/

/-- The node reached from `n` by following child indices. -/
def nodeAt : Node → List Nat → Option Node
  | n, [] => some n
  | n, i :: is =>
    match n.children.get? i with
    | some c => nodeAt c is
    | none => none

theorem decl_frames_list_mem : ∀ (cs : List Node) (par : Node) (gp : Option Node)
    (fr : Frame), fr ∈ decl_frames_list cs par gp →
    ∃ (i : Nat) (c : Node), cs.get? i = some c ∧ c.isNamed = true ∧
      fr ∈ decl_frames c (some par) gp
  | [], _, _, _, hfr => absurd hfr (by rw [decl_frames_list]; simp)
  | c :: cs, par, gp, fr, hfr => by
    rw [decl_frames_list] at hfr
    rcases List.mem_append.mp hfr with h | h
    · cases hn : c.isNamed with
      | false => rw [if_neg (by simp [hn])] at h; cases h
      | true =>
        rw [if_pos hn] at h
        exact ⟨0, c, rfl, hn, h⟩
    · obtain ⟨i, c', hget, hnm, hmem⟩ := decl_frames_list_mem cs par gp fr h
      exact ⟨i + 1, c', hget, hnm, hmem⟩

theorem tsize_le_of_mem : ∀ (cs : List Node) (c : Node),
    c ∈ cs → c.tsize ≤ Node.tsizeList cs
  | [], _, hc => absurd hc (List.not_mem_nil _)
  | x :: xs, c, hc => by
    rcases List.mem_cons.mp hc with rfl | hc
    · rw [Node.tsizeList]
      omega
    · have := tsize_le_of_mem xs c hc
      rw [Node.tsizeList]
      omega

theorem decl_frames_path_aux : ∀ (w : Nat) (n : Node), n.tsize ≤ w →
    ∀ (p g : Option Node) (fr : Frame), fr ∈ decl_frames n p g →
    ∃ path, nodeAt n path = some fr.1 ∧ is_decl fr.1 = true ∧
      ∀ q, q <+: path → q ≠ path → ∀ a, nodeAt n q = some a → is_decl a = false
  | 0, n, hle, _, _, _, _ => by
    rw [tsize_eq] at hle
    omega
  | w + 1, n, hle, p, g, fr, hfr => by
    rw [decl_frames_eq] at hfr
    by_cases hd : is_decl n = true
    · rw [if_pos hd] at hfr
      rcases List.mem_singleton.mp hfr with rfl
      refine ⟨[], rfl, hd, ?_⟩
      intro q hq hne
      exact absurd (List.prefix_nil.mp hq) hne
    · rw [if_neg hd] at hfr
      obtain ⟨i, c, hget, hnm, hmem⟩ := decl_frames_list_mem n.children n p fr hfr
      have hcsize : c.tsize < n.tsize := by
        have hmemc : c ∈ n.children := List.get?_mem hget
        have h1 := tsize_le_of_mem n.children c hmemc
        rw [tsize_eq n]
        omega
      obtain ⟨path, hat, hdecl, hanc⟩ :=
        decl_frames_path_aux w c (Nat.lt_succ_iff.mp (Nat.lt_of_lt_of_le hcsize hle))
          (some n) p fr hmem
      refine ⟨i :: path, ?_, hdecl, ?_⟩
      · rw [nodeAt, hget]
        exact hat
      · intro q hq hne a ha
        cases q with
        | nil =>
          rw [nodeAt] at ha
          obtain rfl : n = a := by injection ha
          simpa using hd
        | cons j q' =>
          obtain ⟨hj, hq'⟩ : j = i ∧ q' <+: path := by
            obtain ⟨r, hr⟩ := hq
            rw [List.cons_append] at hr
            injection hr with h1 h2
            exact ⟨h1, ⟨r, h2⟩⟩
          subst hj
          rw [nodeAt, hget] at ha
          refine hanc q' hq' ?_ a ha
          intro hcontra
          exact hne (by rw [hcontra])

/-- Every declaration frame of `decl_frames` lies at a path from the root
all of whose *proper* ancestors are non-declaration nodes: the traversal
stops at a declaration, so nothing inside one is ever visited. -/
theorem decl_frames_path (n : Node) (p g : Option Node) (fr : Frame)
    (hfr : fr ∈ decl_frames n p g) :
    ∃ path, nodeAt n path = some fr.1 ∧ is_decl fr.1 = true ∧
      ∀ q, q <+: path → q ≠ path → ∀ a, nodeAt n q = some a → is_decl a = false :=
  decl_frames_path_aux n.tsize n (Nat.le_refl _) p g fr hfr

/-! ## Helper lemmas about the diff engine's lists -/

theorem map_fst_pairs (f : String → String) : ∀ l : List String,
    (l.map (fun n => (n, f n))).map Prod.fst = l
  | [] => rfl
  | x :: l => by rw [List.map_cons, List.map_cons, map_fst_pairs f l]

theorem map_fst_filterMap_ite {β : Type} (p : String → Prop) [DecidablePred p]
    (g : String → β) : ∀ l : List String,
    ((l.filterMap (fun n => if p n then some (n, g n) else none)).map Prod.fst)
      = l.filter (fun n => decide (p n))
  | [] => rfl
  | x :: l => by
    rw [List.filterMap_cons, List.filter_cons]
    by_cases hx : p x
    · rw [if_pos hx, List.map_cons, map_fst_filterMap_ite p g l,
        if_pos (by simp [hx])]
    · rw [if_neg hx, map_fst_filterMap_ite p g l, if_neg (by simp [hx])]

/-- The parse tree of an empty file: a `source_file` node with no children
(extraction of it yields three empty maps). -/
def emptyTree : Node := .mk "source_file" true [] ⟨0, 0⟩ ⟨0, 0⟩ []

theorem extract_components_emptyTree : extract_components emptyTree = some ([], [], []) := by
  rw [extract_components_eq]
  rfl

theorem diff_components_self (m : Dict) : diff_components m m = ⟨[], [], []⟩ := by
  simp only [diff_components]
  have hside : (dkeys m).filter (fun n => !(dkeys m).contains n) = [] :=
    List.filter_eq_nil_iff.mpr (fun a ha => by simp [List.elem_iff, ha])
  rw [hside]
  have hmod : ∀ l : List String, (l.filterMap (fun n =>
      if (dget m n).sig ≠ (dget m n).sig then
        some (n, (dget m n).body, (dget m n).body,
          (⟨(dget m n).startP, (dget m n).endP, (dget m n).startP, (dget m n).endP⟩ :
            SpanQuad)) else none)) = [] := by
    intro l
    induction l with
    | nil => rfl
    | cons x l ih => rw [List.filterMap_cons, if_neg (by simp), ih]
  rw [hmod]
  rfl

theorem diff_components_empty_after (m : Dict) :
    diff_components m [] =
      ⟨[], (sortStrings (dkeys m)).map (fun n => (n, (dget m n).body)), []⟩ := by
  simp only [diff_components]
  have hdel : (dkeys m).filter (fun n => !(dkeys ([] : Dict)).contains n) = dkeys m :=
    List.filter_eq_self.mpr (fun a _ => rfl)
  have hcom : (dkeys m).filter (fun n => (dkeys ([] : Dict)).contains n) = [] :=
    List.filter_eq_nil_iff.mpr (fun a _ => by simp [dkeys])
  rw [hdel, hcom]
  rfl

theorem diff_components_empty_before (m : Dict) :
    diff_components [] m =
      ⟨(sortStrings (dkeys m)).map (fun n => (n, (dget m n).body)), [], []⟩ := by
  simp only [diff_components]
  have hadd : (dkeys m).filter (fun n => !(dkeys ([] : Dict)).contains n) = dkeys m :=
    List.filter_eq_self.mpr (fun a _ => rfl)
  rw [hadd]
  rfl

/-- The names of the added list of a change record. -/
def addedNames (r : ChangeRec) : List String := r.added.map Prod.fst

/-- The names of the deleted list of a change record. -/
def deletedNames (r : ChangeRec) : List String := r.deleted.map Prod.fst

/-- The names of the modified list of a change record. -/
def modifiedNames (r : ChangeRec) : List String := r.modified.map Prod.fst

/-- The common names whose signatures are equal: the declarations the diff
reports in none of its three lists. -/
def unchangedNames (before after : Dict) : List String :=
  ((dkeys before).filter (fun n => (dkeys after).contains n)).filter
    (fun n => (dget before n).sig == (dget after n).sig)

theorem mem_addedNames {before after : Dict} {n : String} :
    n ∈ addedNames (diff_components before after) ↔
      n ∈ dkeys after ∧ n ∉ dkeys before := by
  rw [addedNames]
  simp only [diff_components]
  rw [map_fst_pairs, mem_sortStrings, List.mem_filter]
  simp [List.elem_iff]

theorem mem_deletedNames {before after : Dict} {n : String} :
    n ∈ deletedNames (diff_components before after) ↔
      n ∈ dkeys before ∧ n ∉ dkeys after := by
  rw [deletedNames]
  simp only [diff_components]
  rw [map_fst_pairs, mem_sortStrings, List.mem_filter]
  simp [List.elem_iff]

theorem mem_modifiedNames {before after : Dict} {n : String} :
    n ∈ modifiedNames (diff_components before after) ↔
      (n ∈ dkeys before ∧ n ∈ dkeys after) ∧
        (dget before n).sig ≠ (dget after n).sig := by
  rw [modifiedNames]
  simp only [diff_components]
  rw [map_fst_filterMap_ite (fun n => (dget before n).sig ≠ (dget after n).sig)
    (fun n => ((dget before n).body, (dget after n).body,
      (⟨(dget before n).startP, (dget before n).endP, (dget after n).startP,
        (dget after n).endP⟩ : SpanQuad)))]
  rw [List.mem_filter, mem_sortStrings, List.mem_filter]
  simp [List.elem_iff]

theorem mem_unchangedNames {before after : Dict} {n : String} :
    n ∈ unchangedNames before after ↔
      (n ∈ dkeys before ∧ n ∈ dkeys after) ∧
        (dget before n).sig = (dget after n).sig := by
  rw [unchangedNames, List.mem_filter, List.mem_filter]
  simp [List.elem_iff]

theorem pairwise_ascending_of_sorted_nodup {l : List String}
    (hs : l.Pairwise (fun a b => strLe a b = true)) (hn : l.Nodup) :
    l.Pairwise (fun a b => strLe a b = true ∧ a ≠ b) :=
  hs.and hn

/-! ## The claims -/

/-- C1: for every pair of declaration maps, the diff engine partitions
`before_names ∪ after_names`: the added names, the deleted names, the
modified names and the unchanged common names (equal signatures) are
pairwise disjoint, and their union is exactly the union of the two key
sets. -/
theorem diff_partition (before after : Dict) (n : String) :
    ((n ∈ addedNames (diff_components before after) ∨
        n ∈ deletedNames (diff_components before after) ∨
        n ∈ modifiedNames (diff_components before after) ∨
        n ∈ unchangedNames before after) ↔
      (n ∈ dkeys before ∨ n ∈ dkeys after)) ∧
    ¬(n ∈ addedNames (diff_components before after) ∧
      n ∈ deletedNames (diff_components before after)) ∧
    ¬(n ∈ addedNames (diff_components before after) ∧
      n ∈ modifiedNames (diff_components before after)) ∧
    ¬(n ∈ addedNames (diff_components before after) ∧
      n ∈ unchangedNames before after) ∧
    ¬(n ∈ deletedNames (diff_components before after) ∧
      n ∈ modifiedNames (diff_components before after)) ∧
    ¬(n ∈ deletedNames (diff_components before after) ∧
      n ∈ unchangedNames before after) ∧
    ¬(n ∈ modifiedNames (diff_components before after) ∧
      n ∈ unchangedNames before after) := by
  rw [mem_addedNames, mem_deletedNames, mem_modifiedNames, mem_unchangedNames]
  tauto

/-- C3: the canonical signature recurses only into named children, so
unnamed child nodes never affect signature equality.  `scrub` erases
exactly what `ast_to_tuple` ignores — all unnamed children, all positions,
and the raw text of any node that has a named child; two trees with equal
scrubs (i.e. differing only in such formatting data, including a node all
of whose children are unnamed, whose unnamed children may differ freely)
have deeply equal signatures. -/
theorem signature_ignores_unnamed (a b : Node) (h : scrub a = scrub b) :
    ast_to_tuple a = ast_to_tuple b := by
  rw [← ast_to_tuple_scrub a, h, ast_to_tuple_scrub b]

/-- C5: diffing a tree against itself yields empty added, deleted and
modified lists in all three categories. -/
theorem self_diff_empty (module_name : String) (root : Node) (dc : DetailedChanges)
    (h : compare_two_files module_name root root = some dc) :
    dc.addedFunctions = [] ∧ dc.modifiedFunctions = [] ∧ dc.deletedFunctions = [] ∧
    dc.addedTypes = [] ∧ dc.modifiedTypes = [] ∧ dc.deletedTypes = [] ∧
    dc.addedExternals = [] ∧ dc.modifiedExternals = [] ∧ dc.deletedExternals = [] := by
  rw [compare_two_files] at h
  cases hx : extract_components root with
  | none => rw [hx] at h; cases h
  | some m =>
    obtain ⟨f, t, e⟩ := m
    rw [hx] at h
    simp only [Option.some.injEq] at h
    subst h
    simp [diff_components_self]

/-- C6: the stack traversal visits declarations in document order
(`function_entries`/`type_entries`/`external_entries` enumerate, via the
structural left-to-right walk `decl_frames` proven equal to the loop, the
`(name, entry)` pairs the loop records, in document order), and when two
declarations resolve to the same name the map keeps the entry of the
*later* one in that order: the lookup equals `lastVal`, the last pair of
the document-order list with that key — last-write-wins, no error. -/
theorem extract_last_write_wins (root : Node) (f t e : Dict)
    (h : extract_components root = some (f, t, e)) (k : String) :
    dfind? f k = lastVal (function_entries root) k ∧
    dfind? t k = lastVal (type_entries root) k ∧
    dfind? e k = lastVal (external_entries root) k := by
  obtain ⟨hf, ht, he⟩ := extract_components_some h
  subst hf
  subst ht
  subst he
  exact ⟨dfind?_dict_of _ k, dfind?_dict_of _ k, dfind?_dict_of _ k⟩

/-- C9: every key of every extracted map is the computed name of a
declaration node reachable from the root through non-declaration ancestors
only — extraction never descends into a recognized declaration, so a
declaration nested inside another recognized declaration contributes no
map entry (and hence no output-list entry) of its own. -/
theorem nested_decls_invisible (root : Node) (f t e : Dict)
    (h : extract_components root = some (f, t, e)) (k : String)
    (hk : k ∈ dkeys f ∨ k ∈ dkeys t ∨ k ∈ dkeys e) :
    ∃ (fr : Frame) (path : List Nat),
      fr ∈ decl_frames root none none ∧ is_decl fr.1 = true ∧
      ((∃ v, let_entry fr.1 fr.2.1 fr.2.2 = some (k, v)) ∨
       (∃ v, type_entry fr.1 fr.2.1 fr.2.2 = some (k, v)) ∨
       (∃ v, ext_entry fr.1 fr.2.1 fr.2.2 = some (k, v))) ∧
      nodeAt root path = some fr.1 ∧
      (∀ q, q <+: path → q ≠ path → ∀ a, nodeAt root q = some a →
        is_decl a = false) := by
  obtain ⟨hf, ht, he⟩ := extract_components_some h
  have key : ∀ (entry_fn : Node → Option Node → Option Node → Option (String × Entry)),
      k ∈ ((decl_frames root none none).filterMap
        (fun fr => entry_fn fr.1 fr.2.1 fr.2.2)).map Prod.fst →
      ∃ fr, fr ∈ decl_frames root none none ∧
        ∃ v, entry_fn fr.1 fr.2.1 fr.2.2 = some (k, v) := by
    intro entry_fn hmem
    obtain ⟨pair, hpair, hfst⟩ := List.mem_map.mp hmem
    obtain ⟨fr, hfr, hoe⟩ := List.mem_filterMap.mp hpair
    exact ⟨fr, hfr, pair.2, by rw [hoe, ← hfst]⟩
  rcases hk with hk | hk | hk
  · subst hf
    obtain ⟨fr, hfr, v, hv⟩ := key _ (dkeys_dict_of_subset (function_entries root) k hk)
    obtain ⟨path, hat, hdecl, hanc⟩ := decl_frames_path root none none fr hfr
    exact ⟨fr, path, hfr, hdecl, Or.inl ⟨v, hv⟩, hat, hanc⟩
  · subst ht
    obtain ⟨fr, hfr, v, hv⟩ := key _ (dkeys_dict_of_subset (type_entries root) k hk)
    obtain ⟨path, hat, hdecl, hanc⟩ := decl_frames_path root none none fr hfr
    exact ⟨fr, path, hfr, hdecl, Or.inr (Or.inl ⟨v, hv⟩), hat, hanc⟩
  · subst he
    obtain ⟨fr, hfr, v, hv⟩ := key _ (dkeys_dict_of_subset (external_entries root) k hk)
    obtain ⟨path, hat, hdecl, hanc⟩ := decl_frames_path root none none fr hfr
    exact ⟨fr, path, hfr, hdecl, Or.inr (Or.inr ⟨v, hv⟩), hat, hanc⟩

/-- C4: single-version mode with `mode = "deleted"` on a tree produces, in
each of the three categories, exactly the same deleted list as the
two-version compare of (tree, empty-tree); and symmetrically
`mode = "added"` produces the same added lists as the compare of
(empty-tree, tree).  `emptyTree` is the parse of an empty file. -/
theorem single_file_framing (module_name : String) (root : Node)
    (dcD dcC dcA dcC' : DetailedChanges)
    (h1 : process_single_file module_name root "deleted" = some dcD)
    (h2 : compare_two_files module_name root emptyTree = some dcC)
    (h3 : process_single_file module_name root "added" = some dcA)
    (h4 : compare_two_files module_name emptyTree root = some dcC') :
    (dcD.deletedFunctions = dcC.deletedFunctions ∧
     dcD.deletedTypes = dcC.deletedTypes ∧
     dcD.deletedExternals = dcC.deletedExternals) ∧
    (dcA.addedFunctions = dcC'.addedFunctions ∧
     dcA.addedTypes = dcC'.addedTypes ∧
     dcA.addedExternals = dcC'.addedExternals) := by
  rw [process_single_file] at h1 h3
  rw [compare_two_files] at h2 h4
  rw [extract_components_emptyTree] at h2 h4
  cases hx : extract_components root with
  | none => rw [hx] at h1; cases h1
  | some m =>
    obtain ⟨f, t, e⟩ := m
    rw [hx] at h1 h2 h3 h4
    rw [show (("deleted" : String) == "deleted") = true from by decide] at h1
    rw [show (("added" : String) == "deleted") = false from by decide] at h3
    simp only [eq_self_iff_true, if_true, Bool.false_eq_true, if_false,
      Option.some.injEq] at h1 h2 h3 h4
    subst h1
    subst h2
    subst h3
    subst h4
    simp [diff_components_empty_after, diff_components_empty_before]

/-- C10: in single-version mode every mode string other than exactly
`"deleted"` falls into the added branch: all extracted declarations are
placed into the added lists and the deleted (and modified) lists stay
empty. -/
theorem single_file_mode_fallback (module_name : String) (root : Node) (mode : String)
    (hmode : mode ≠ "deleted") (dc : DetailedChanges)
    (h : process_single_file module_name root mode = some dc) :
    dc.deletedFunctions = [] ∧ dc.deletedTypes = [] ∧ dc.deletedExternals = [] ∧
    dc.modifiedFunctions = [] ∧ dc.modifiedTypes = [] ∧ dc.modifiedExternals = [] ∧
    ∃ f t e, extract_components root = some (f, t, e) ∧
      dc.addedFunctions = (sortStrings (dkeys f)).map (fun n => (n, (dget f n).body)) ∧
      dc.addedTypes = (sortStrings (dkeys t)).map (fun n => (n, (dget t n).body)) ∧
      dc.addedExternals = (sortStrings (dkeys e)).map (fun n => (n, (dget e n).body)) := by
  have hbeq : (mode == "deleted") = false := beq_eq_false_iff_ne.mpr hmode
  rw [process_single_file] at h
  cases hx : extract_components root with
  | none => rw [hx] at h; cases h
  | some m =>
    obtain ⟨f, t, e⟩ := m
    rw [hx] at h
    rw [hbeq] at h
    simp only [Bool.false_eq_true, if_false, Option.some.injEq] at h
    subst h
    exact ⟨rfl, rfl, rfl, rfl, rfl, rfl, f, t, e, rfl, rfl, rfl, rfl⟩

/-- C8: every list the diff engine produces from a pair of declaration maps
(with distinct keys, as every dict the program builds has), and every list
single-version mode produces, is strictly ascending by name (code-point
lexicographic, Python's string order) — in particular no name occurs twice
in one list. -/
theorem output_lists_sorted :
    (∀ before after : Dict, (dkeys before).Nodup → (dkeys after).Nodup →
      (addedNames (diff_components before after)).Pairwise
        (fun a b => strLe a b = true ∧ a ≠ b) ∧
      (deletedNames (diff_components before after)).Pairwise
        (fun a b => strLe a b = true ∧ a ≠ b) ∧
      (modifiedNames (diff_components before after)).Pairwise
        (fun a b => strLe a b = true ∧ a ≠ b)) ∧
    (∀ (module_name : String) (root : Node) (mode : String) (dc : DetailedChanges),
      process_single_file module_name root mode = some dc →
      (dc.addedFunctions.map Prod.fst).Pairwise (fun a b => strLe a b = true ∧ a ≠ b) ∧
      (dc.addedTypes.map Prod.fst).Pairwise (fun a b => strLe a b = true ∧ a ≠ b) ∧
      (dc.addedExternals.map Prod.fst).Pairwise (fun a b => strLe a b = true ∧ a ≠ b) ∧
      (dc.deletedFunctions.map Prod.fst).Pairwise (fun a b => strLe a b = true ∧ a ≠ b) ∧
      (dc.deletedTypes.map Prod.fst).Pairwise (fun a b => strLe a b = true ∧ a ≠ b) ∧
      (dc.deletedExternals.map Prod.fst).Pairwise (fun a b => strLe a b = true ∧ a ≠ b) ∧
      (dc.modifiedFunctions.map Prod.fst).Pairwise (fun a b => strLe a b = true ∧ a ≠ b) ∧
      (dc.modifiedTypes.map Prod.fst).Pairwise (fun a b => strLe a b = true ∧ a ≠ b) ∧
      (dc.modifiedExternals.map Prod.fst).Pairwise
        (fun a b => strLe a b = true ∧ a ≠ b)) := by
  have hsorted : ∀ l : List String, l.Nodup →
      (sortStrings l).Pairwise (fun a b => strLe a b = true ∧ a ≠ b) :=
    fun l hn => pairwise_ascending_of_sorted_nodup (sorted_sortStrings l)
      (nodup_sortStrings hn)
  have hmapkeys : ∀ (m : Dict) (hm : (dkeys m).Nodup),
      (((sortStrings (dkeys m)).map (fun n => (n, (dget m n).body))).map
        Prod.fst).Pairwise (fun a b => strLe a b = true ∧ a ≠ b) := by
    intro m hm
    rw [map_fst_pairs]
    exact hsorted _ hm
  constructor
  · intro before after hb ha
    refine ⟨?_, ?_, ?_⟩
    · rw [addedNames]
      simp only [diff_components]
      rw [map_fst_pairs]
      exact hsorted _ (ha.filter _)
    · rw [deletedNames]
      simp only [diff_components]
      rw [map_fst_pairs]
      exact hsorted _ (hb.filter _)
    · rw [modifiedNames]
      simp only [diff_components]
      rw [map_fst_filterMap_ite (fun n => (dget before n).sig ≠ (dget after n).sig)
        (fun n => ((dget before n).body, (dget after n).body,
          (⟨(dget before n).startP, (dget before n).endP, (dget after n).startP,
            (dget after n).endP⟩ : SpanQuad)))]
      exact List.Pairwise.sublist (List.filter_sublist _)
        (hsorted _ ((hb.filter _)))
  · intro module_name root mode dc h
    rw [process_single_file] at h
    cases hx : extract_components root with
    | none => rw [hx] at h; cases h
    | some m =>
      obtain ⟨f, t, e⟩ := m
      rw [hx] at h
      have hnf : (dkeys f).Nodup := by
        obtain ⟨hf, _, _⟩ := extract_components_some hx
        subst hf
        exact nodup_dkeys_dict_of _
      have hnt : (dkeys t).Nodup := by
        obtain ⟨_, ht, _⟩ := extract_components_some hx
        subst ht
        exact nodup_dkeys_dict_of _
      have hne : (dkeys e).Nodup := by
        obtain ⟨_, _, he⟩ := extract_components_some hx
        subst he
        exact nodup_dkeys_dict_of _
      by_cases hmode : (mode == "deleted") = true
      · rw [hmode] at h
        simp only [eq_self_iff_true, if_true, Option.some.injEq] at h
        subst h
        exact ⟨List.Pairwise.nil, List.Pairwise.nil, List.Pairwise.nil,
          hmapkeys f hnf, hmapkeys t hnt, hmapkeys e hne,
          List.Pairwise.nil, List.Pairwise.nil, List.Pairwise.nil⟩
      · rw [show (mode == "deleted") = false from by simpa using hmode] at h
        simp only [Bool.false_eq_true, if_false, Option.some.injEq] at h
        subst h
        exact ⟨hmapkeys f hnf, hmapkeys t hnt, hmapkeys e hne,
          List.Pairwise.nil, List.Pairwise.nil, List.Pairwise.nil,
          List.Pairwise.nil, List.Pairwise.nil, List.Pairwise.nil⟩

/-! ## Concrete example trees (used by the remaining claims and by the
witnesses) -/

/-- `let b = 1`: the binding's `value_identifier` is `b`. -/
def exVidB : Node := .mk "value_identifier" true [98] ⟨0, 4⟩ ⟨0, 5⟩ []

/-- the `let_binding` of `let b = 1`. -/
def exBindB : Node := .mk "let_binding" true [98, 32, 61, 32, 49] ⟨0, 4⟩ ⟨0, 9⟩
  [exVidB, .mk "=" false [61] ⟨0, 6⟩ ⟨0, 7⟩ [], .mk "number" true [49] ⟨0, 8⟩ ⟨0, 9⟩ []]

/-- the declaration `let b = 1`. -/
def exLetB : Node := .mk "let_declaration" true [108, 101, 116, 32, 98, 32, 61, 32, 49]
  ⟨0, 0⟩ ⟨0, 9⟩ [.mk "let" false [108, 101, 116] ⟨0, 0⟩ ⟨0, 3⟩ [], exBindB]

/-- `let a = 2`. -/
def exVidA : Node := .mk "value_identifier" true [97] ⟨1, 4⟩ ⟨1, 5⟩ []

/-- the `let_binding` of `let a = 2`. -/
def exBindA : Node := .mk "let_binding" true [97, 32, 61, 32, 50] ⟨1, 4⟩ ⟨1, 9⟩
  [exVidA, .mk "=" false [61] ⟨1, 6⟩ ⟨1, 7⟩ [], .mk "number" true [50] ⟨1, 8⟩ ⟨1, 9⟩ []]

/-- the declaration `let a = 2`. -/
def exLetA : Node := .mk "let_declaration" true [108, 101, 116, 32, 97, 32, 61, 32, 50]
  ⟨1, 0⟩ ⟨1, 9⟩ [.mk "let" false [108, 101, 116] ⟨1, 0⟩ ⟨1, 3⟩ [], exBindA]

/-- `type t = int`. -/
def exTypeT : Node := .mk "type_declaration" true
  [116, 121, 112, 101, 32, 116, 32, 61, 32, 105, 110, 116] ⟨2, 0⟩ ⟨2, 12⟩
  [.mk "type" false [116, 121, 112, 101] ⟨2, 0⟩ ⟨2, 4⟩ [],
   .mk "type_binding" true [116, 32, 61, 32, 105, 110, 116] ⟨2, 5⟩ ⟨2, 12⟩
     [.mk "type_identifier" true [116] ⟨2, 5⟩ ⟨2, 6⟩ [],
      .mk "=" false [61] ⟨2, 7⟩ ⟨2, 8⟩ [],
      .mk "type_identifier" true [105, 110, 116] ⟨2, 9⟩ ⟨2, 12⟩ []]]

/-- `external e`. -/
def exExtE : Node := .mk "external_declaration" true
  [101, 120, 116, 101, 114, 110, 97, 108, 32, 101] ⟨3, 0⟩ ⟨3, 10⟩
  [.mk "external" false [101, 120, 116, 101, 114, 110, 97, 108] ⟨3, 0⟩ ⟨3, 8⟩ [],
   .mk "value_identifier" true [101] ⟨3, 9⟩ ⟨3, 10⟩ []]

/-- a file with the two functions (declared `b` before `a`), one type and
one external above. -/
def exRoot : Node := .mk "source_file" true [] ⟨0, 0⟩ ⟨4, 0⟩
  [exLetB, exLetA, exTypeT, exExtE]

/-- `let x = 1`, the earlier of two same-named declarations. -/
def exDupLet1 : Node := .mk "let_declaration" true
  [108, 101, 116, 32, 120, 32, 61, 32, 49] ⟨0, 0⟩ ⟨0, 9⟩
  [.mk "let" false [108, 101, 116] ⟨0, 0⟩ ⟨0, 3⟩ [],
   .mk "let_binding" true [120, 32, 61, 32, 49] ⟨0, 4⟩ ⟨0, 9⟩
     [.mk "value_identifier" true [120] ⟨0, 4⟩ ⟨0, 5⟩ [],
      .mk "number" true [49] ⟨0, 8⟩ ⟨0, 9⟩ []]]

/-- `let x = 2`, the later of two same-named declarations. -/
def exDupLet2 : Node := .mk "let_declaration" true
  [108, 101, 116, 32, 120, 32, 61, 32, 50] ⟨1, 0⟩ ⟨1, 9⟩
  [.mk "let" false [108, 101, 116] ⟨1, 0⟩ ⟨1, 3⟩ [],
   .mk "let_binding" true [120, 32, 61, 32, 50] ⟨1, 4⟩ ⟨1, 9⟩
     [.mk "value_identifier" true [120] ⟨1, 4⟩ ⟨1, 5⟩ [],
      .mk "number" true [50] ⟨1, 8⟩ ⟨1, 9⟩ []]]

/-- a file declaring `x` twice. -/
def exDupRoot : Node := .mk "source_file" true [] ⟨0, 0⟩ ⟨2, 0⟩ [exDupLet1, exDupLet2]

/-- `let i = 3` nested inside the body of `exNestOuter`. -/
def exNestInner : Node := .mk "let_declaration" true
  [108, 101, 116, 32, 105, 32, 61, 32, 51] ⟨0, 14⟩ ⟨0, 23⟩
  [.mk "let" false [108, 101, 116] ⟨0, 14⟩ ⟨0, 17⟩ [],
   .mk "let_binding" true [105, 32, 61, 32, 51] ⟨0, 18⟩ ⟨0, 23⟩
     [.mk "value_identifier" true [105] ⟨0, 18⟩ ⟨0, 19⟩ [],
      .mk "number" true [51] ⟨0, 22⟩ ⟨0, 23⟩ []]]

/-- `let o = { let i = 3 ... }`: a declaration with another declaration in
its body. -/
def exNestOuter : Node := .mk "let_declaration" true
  [108, 101, 116, 32, 111, 32, 61, 32, 123, 105, 125] ⟨0, 0⟩ ⟨0, 25⟩
  [.mk "let" false [108, 101, 116] ⟨0, 0⟩ ⟨0, 3⟩ [],
   .mk "let_binding" true [111, 32, 61, 32, 123, 105, 125] ⟨0, 4⟩ ⟨0, 25⟩
     [.mk "value_identifier" true [111] ⟨0, 4⟩ ⟨0, 5⟩ [],
      .mk "block" true [123, 105, 125] ⟨0, 8⟩ ⟨0, 25⟩ [exNestInner]]]

/-- a file whose only top-level declaration contains a nested one. -/
def exNestRoot : Node := .mk "source_file" true [] ⟨0, 0⟩ ⟨1, 0⟩ [exNestOuter]

/-- `1 + 2` as parsed: the operator token is an unnamed child. -/
def exFmt1 : Node := .mk "binary_expression" true [49, 32, 43, 32, 50] ⟨0, 0⟩ ⟨0, 5⟩
  [.mk "number" true [49] ⟨0, 0⟩ ⟨0, 1⟩ [],
   .mk "+" false [43] ⟨0, 2⟩ ⟨0, 3⟩ [],
   .mk "number" true [50] ⟨0, 4⟩ ⟨0, 5⟩ []]

/-- the same expression reformatted (`1+2`): positions moved, the parent's
raw text changed, the unnamed operator token removed — only the named
structure is intact. -/
def exFmt2 : Node := .mk "binary_expression" true [49, 43, 50] ⟨7, 2⟩ ⟨7, 5⟩
  [.mk "number" true [49] ⟨7, 2⟩ ⟨7, 3⟩ [],
   .mk "number" true [50] ⟨7, 4⟩ ⟨7, 5⟩ []]

/-- a nested `let_declaration` with no `let_binding` child: its name lookup
fails (`get_decl_name` returns `None`). -/
def exBugLet : Node := .mk "let_declaration" true [108, 101, 116] ⟨0, 12⟩ ⟨0, 15⟩ []

/-- the block containing `exBugLet` (so its parent is not `source_file`). -/
def exBugBlock : Node := .mk "block" true [123, 125] ⟨0, 11⟩ ⟨0, 17⟩ [exBugLet]

/-- the module binding whose first child's text `M` becomes the
qualification prefix. -/
def exBugModule : Node := .mk "module_binding" true [77] ⟨0, 7⟩ ⟨0, 17⟩
  [.mk "module_identifier" true [77] ⟨0, 7⟩ ⟨0, 8⟩ [], exBugBlock]

/-- a file with a nested, nameless `let_declaration` under a module. -/
def exBugRoot : Node := .mk "source_file" true [] ⟨0, 0⟩ ⟨1, 0⟩ [exBugModule]

/-- C2 (code bug): a nested `let_declaration` whose name lookup fails is
NOT skipped when the qualification step succeeds — the f-string renders the
`None` name as the text `"None"`, the qualified string `"M --> None"` is
truthy, and the declaration is recorded in the functions map under that
key, contradicting the skip-silently policy (and its own `if name:` guard's
evident intent). -/
theorem unnamed_nested_let_recorded :
    get_decl_name exBugLet (some "let_binding") "value_identifier" = none ∧
    extract_components exBugRoot = some ([("M --> None", mkEntry exBugLet)], [], []) := by
  constructor
  · decide
  · rw [extract_components_eq]
    decide

/-- C7 (counterexample): the source decodes with `errors="ignore"`, which
*drops* an invalid byte, not with the lossy *replacement* the spec
describes: on the sole byte `0xFF` the canonicalizer's base case produces
the empty text, while the spec's replacement decoding produces U+FFFD, and
the two decoders disagree. -/
theorem decode_not_replace_counterexample :
    ast_to_tuple (Node.mk "string" true [255] ⟨0, 0⟩ ⟨0, 1⟩ []) = Sig.leaf "string" "" ∧
    utf8DecodeReplaceSpec [255] = [Char.ofNat 0xFFFD] ∧
    utf8DecodeIgnore [255] ≠ utf8DecodeReplaceSpec [255] := by
  refine ⟨?_, ?_, ?_⟩ <;> decide

/-- C7 (amended): decoding of node text is total over any byte sequence
and never fails, but a byte that cannot start a valid UTF-8 sequence is
*dropped* (`errors="ignore"`), not replaced: prepending such a byte leaves
the decoded text — and hence the signature of a childless node carrying
those bytes — unchanged. -/
theorem decode_ignore_total_drops (b : Nat) (bs : List Nat)
    (h : (0x80 ≤ b ∧ b ≤ 0xC1) ∨ 0xF5 ≤ b) :
    utf8DecodeIgnore (b :: bs) = utf8DecodeIgnore bs ∧
    ∀ (ty : String) (nm : Bool) (sp ep : Pos),
      ast_to_tuple (Node.mk ty nm (b :: bs) sp ep []) = Sig.leaf ty (decode_ignore bs) := by
  have hc2 : (decide (0xC2 ≤ b) && decide (b ≤ 0xDF)) = false := by
    rcases h with ⟨ha1, ha2⟩ | ha
    · rw [decide_eq_false (by omega : ¬ 0xC2 ≤ b), Bool.false_and]
    · rw [decide_eq_false (by omega : ¬ b ≤ 0xDF), Bool.and_false]
  have hc3 : (decide (0xE0 ≤ b) && decide (b ≤ 0xEF)) = false := by
    rcases h with ⟨ha1, ha2⟩ | ha
    · rw [decide_eq_false (by omega : ¬ 0xE0 ≤ b), Bool.false_and]
    · rw [decide_eq_false (by omega : ¬ b ≤ 0xEF), Bool.and_false]
  have hc4 : (decide (0xF0 ≤ b) && decide (b ≤ 0xF4)) = false := by
    rcases h with ⟨ha1, ha2⟩ | ha
    · rw [decide_eq_false (by omega : ¬ 0xF0 ≤ b), Bool.false_and]
    · rw [decide_eq_false (by omega : ¬ b ≤ 0xF4), Bool.and_false]
  have hb : ¬ b < 0x80 := by rcases h with ⟨ha1, _⟩ | ha <;> omega
  have hlead : utf8Lead b = ([], none, 1) := by
    rw [utf8Lead, if_neg hb, hc2, hc3, hc4]
    simp only [Bool.false_eq_true, if_false]
  have hign : utf8DecodeIgnore (b :: bs) = utf8DecodeIgnore bs := by
    show utf8IgnoreRun none (b :: bs) = utf8IgnoreRun none bs
    rw [utf8IgnoreRun, show utf8Step none b = utf8Lead b from rfl, hlead]
    rfl
  refine ⟨hign, ?_⟩
  intro ty nm sp ep
  show Sig.leaf ty (decode_ignore (b :: bs)) = Sig.leaf ty (decode_ignore bs)
  rw [decode_ignore, decode_ignore, hign]

/-! ## Witnesses -/

/-- The report single-version `deleted` mode produces on `exRoot` (equal to
what the two-version compare of `(exRoot, emptyTree)` produces). -/
def exDeletedReport : DetailedChanges :=
  ⟨"m", [], [], [("a", "let a = 2"), ("b", "let b = 1")],
   [], [], [("t", "type t = int")], [], [], [("e", "external e")]⟩

/-- The report single-version `added` mode produces on `exRoot`. -/
def exAddedReport : DetailedChanges :=
  ⟨"m", [("a", "let a = 2"), ("b", "let b = 1")], [], [],
   [("t", "type t = int")], [], [], [("e", "external e")], [], []⟩

/-- The all-empty report of a self-diff. -/
def exEmptyReport : DetailedChanges := ⟨"m", [], [], [], [], [], [], [], [], []⟩

/-- A before-map with keys out of alphabetical order. -/
def exBefore : Dict := [("b", mkEntry exLetB), ("a", mkEntry exLetA)]

/-- An after-map sharing the key `a` (with a different signature). -/
def exAfter : Dict := [("a", mkEntry exLetB), ("c", mkEntry exTypeT)]

theorem signature_ignores_unnamed_witness :
    ast_to_tuple exFmt1 = ast_to_tuple exFmt2 ∧ exFmt1 ≠ exFmt2 :=
  ⟨signature_ignores_unnamed exFmt1 exFmt2 (by decide), by decide⟩

theorem self_diff_empty_witness :
    exEmptyReport.addedFunctions = [] ∧ exEmptyReport.modifiedFunctions = [] ∧
    exEmptyReport.deletedFunctions = [] ∧ exEmptyReport.addedTypes = [] ∧
    exEmptyReport.modifiedTypes = [] ∧ exEmptyReport.deletedTypes = [] ∧
    exEmptyReport.addedExternals = [] ∧ exEmptyReport.modifiedExternals = [] ∧
    exEmptyReport.deletedExternals = [] :=
  self_diff_empty "m" exRoot exEmptyReport
    (by rw [compare_two_files, extract_components_eq exRoot]; decide)

theorem single_file_framing_witness :
    (exDeletedReport.deletedFunctions = exDeletedReport.deletedFunctions ∧
     exDeletedReport.deletedTypes = exDeletedReport.deletedTypes ∧
     exDeletedReport.deletedExternals = exDeletedReport.deletedExternals) ∧
    (exAddedReport.addedFunctions = exAddedReport.addedFunctions ∧
     exAddedReport.addedTypes = exAddedReport.addedTypes ∧
     exAddedReport.addedExternals = exAddedReport.addedExternals) :=
  single_file_framing "m" exRoot exDeletedReport exDeletedReport exAddedReport
    exAddedReport
    (by rw [process_single_file, extract_components_eq exRoot]; decide)
    (by rw [compare_two_files, extract_components_eq exRoot,
          extract_components_eq emptyTree]; decide)
    (by rw [process_single_file, extract_components_eq exRoot]; decide)
    (by rw [compare_two_files, extract_components_eq emptyTree,
          extract_components_eq exRoot]; decide)

theorem extract_last_write_wins_witness :
    dfind? [("x", mkEntry exDupLet2)] "x" = lastVal (function_entries exDupRoot) "x" ∧
    lastVal (function_entries exDupRoot) "x" = some (mkEntry exDupLet2) :=
  ⟨(extract_last_write_wins exDupRoot [("x", mkEntry exDupLet2)] [] []
      (by rw [extract_components_eq]; decide) "x").1,
   by decide⟩

theorem decode_ignore_total_drops_witness :
    utf8DecodeIgnore [255, 65] = utf8DecodeIgnore [65] :=
  (decode_ignore_total_drops 255 [65] (by decide)).1

theorem output_lists_sorted_witness :
    (addedNames (diff_components exBefore exAfter)).Pairwise
      (fun a b => strLe a b = true ∧ a ≠ b) ∧
    (exAddedReport.addedFunctions.map Prod.fst).Pairwise
      (fun a b => strLe a b = true ∧ a ≠ b) :=
  ⟨(output_lists_sorted.1 exBefore exAfter (by decide) (by decide)).1,
   (output_lists_sorted.2 "m" exRoot "added" exAddedReport
      (by rw [process_single_file, extract_components_eq exRoot]; decide)).1⟩

theorem nested_decls_invisible_witness :
    ∃ (fr : Frame) (path : List Nat),
      fr ∈ decl_frames exNestRoot none none ∧ is_decl fr.1 = true ∧
      ((∃ v, let_entry fr.1 fr.2.1 fr.2.2 = some ("o", v)) ∨
       (∃ v, type_entry fr.1 fr.2.1 fr.2.2 = some ("o", v)) ∨
       (∃ v, ext_entry fr.1 fr.2.1 fr.2.2 = some ("o", v))) ∧
      nodeAt exNestRoot path = some fr.1 ∧
      (∀ q, q <+: path → q ≠ path → ∀ a, nodeAt exNestRoot q = some a →
        is_decl a = false) :=
  nested_decls_invisible exNestRoot [("o", mkEntry exNestOuter)] [] []
    (by rw [extract_components_eq]; decide) "o" (Or.inl (by decide))

theorem single_file_mode_fallback_witness :
    exAddedReport.deletedFunctions = [] ∧ exAddedReport.deletedTypes = [] ∧
    exAddedReport.deletedExternals = [] ∧ exAddedReport.modifiedFunctions = [] ∧
    exAddedReport.modifiedTypes = [] ∧ exAddedReport.modifiedExternals = [] ∧
    ∃ f t e, extract_components exRoot = some (f, t, e) ∧
      exAddedReport.addedFunctions =
        (sortStrings (dkeys f)).map (fun n => (n, (dget f n).body)) ∧
      exAddedReport.addedTypes =
        (sortStrings (dkeys t)).map (fun n => (n, (dget t n).body)) ∧
      exAddedReport.addedExternals =
        (sortStrings (dkeys e)).map (fun n => (n, (dget e n).body)) :=
  single_file_mode_fallback "m" exRoot "oops" (by decide) exAddedReport
    (by rw [process_single_file, extract_components_eq exRoot]; decide)

end RescriptAstDiff
